import Mathlib

/-!
Verification development for the missing-glyph resolution pipeline of the
`action-font-fix-pdfix-docker` repository.

The definitions below are shallow embeddings of the Python code in
`src/fixmissingunicode.py`, `src/ocr.py` and `src/page_render.py`:

* `PdfRect`, `CharLocation`, `MissingGlyph` embed the data model
  (coordinates are modelled as exact rationals);
* `pyMax` embeds Python's `max(iterable, key=...)` (the fold keeps the
  current best and replaces it only on a strictly greater key, so the
  first element attaining the maximal key wins);
* `resolveGlyphChar` embeds the tail of `_ocr_missing_glyph`
  (the empty-results default and `max(results, key=results.count)`);
* `increase_bbox` embeds `_increase_bbox` (which in Python updates the
  fields of the rect it is given in place and returns the same object);
* `should_char_be_ocr`, `gatherStep`, `gatherChars` embed
  `_should_char_be_ocr` and the per-character loop of
  `_gather_all_missing_occurences` (Python's `ord` raises on a string
  whose length is not 1, modelled with `Except`);
* `collectResults`, `ocrMissingGlyph`, `processAllMissing`,
  `fixMissingUnicodeSteps`, `cleanUpRenderedPages` embed the sampling
  loop of `_ocr_missing_glyph`, `_process_all_missing_occurences` and the
  control flow of `fix_missing_unicode` (a raised
  `PdfixFailedToRenderException` is modelled as `Except.error`);
* `lookupRender`, `getPdfPageRender`, `renderTrace` embed the render
  cache `_get_pdf_page_render`;
* `tesseract_ocr`, `rapid_ocr`, `easy_ocr` embed the backend boundary
  functions of `ocr.py`.
-/

/-- Embedding of `pdfixsdk.PdfRect`: four page-space coordinates.
Python stores floats; they are modelled as exact rationals. -/
@[ext]
structure PdfRect where
  left : ℚ
  top : ℚ
  right : ℚ
  bottom : ℚ
deriving DecidableEq, Repr

/-- Embedding of `CharLocation`: page index, bounding box and the height
that the constructor computes once as `abs(bbox.top - bbox.bottom)`. -/
structure CharLocation where
  page_index : ℕ
  bbox : PdfRect
  height : ℚ
deriving DecidableEq, Repr

/-- Embedding of the `CharLocation.__init__` constructor: the height is
derived from the bbox at construction time and stored. -/
def mkCharLocation (page_index : ℕ) (bbox : PdfRect) : CharLocation :=
  { page_index := page_index, bbox := bbox, height := |bbox.top - bbox.bottom| }

/-- Embedding of Python's `max(x :: l, key=key)`: fold over the tail,
replacing the current best only when the candidate's key is strictly
greater.  Hence the first element attaining the maximal key is returned. -/
def pyMax {α β : Type} [LinearOrder β] (key : α → β) (x : α) (l : List α) : α :=
  l.foldl (fun b a => if key b < key a then a else b) x

/-- Right-to-left restatement of `pyMax`, used to reason about it by
structural induction. -/
def firstMaxNE {α β : Type} [LinearOrder β] (key : α → β) : α → List α → α
  | b, [] => b
  | b, a :: l => if key b < key (firstMaxNE key a l) then firstMaxNE key a l else b

/-- Embedding of the last lines of `_ocr_missing_glyph`: with no OCR
results return the caller-supplied default character, otherwise
`max(results, key=results.count)`. -/
def resolveGlyphChar (results : List String) (default_character : String) : String :=
  match results with
  | [] => default_character
  | x :: xs => pyMax (fun s => (x :: xs).count s) x xs

/-- Index of the first occurrence of a string in a list (the list's length
if absent). -/
def firstIdx : List String → String → ℕ
  | [], _ => 0
  | a :: l, s => if a = s then 0 else firstIdx l s + 1

lemma firstMaxNE_step {α β : Type} [LinearOrder β] (key : α → β) (l : List α) (a b : α) :
    firstMaxNE key (if key b < key a then a else b) l =
      if key b < key (firstMaxNE key a l) then firstMaxNE key a l else b := by
  induction l generalizing a b with
  | nil => simp [firstMaxNE]
  | cons c l ih =>
    by_cases hba : key b < key a
    · by_cases hay : key a < key (firstMaxNE key c l)
      · have hby : key b < key (firstMaxNE key c l) := lt_trans hba hay
        simp [firstMaxNE, hba, hay, hby, ih]
      · simp [firstMaxNE, hba, hay, ih]
    · by_cases hay : key a < key (firstMaxNE key c l)
      · simp [firstMaxNE, hba, hay, ih]
      · have hby : ¬ key b < key (firstMaxNE key c l) := fun h =>
          hba (lt_of_lt_of_le h (le_of_not_lt hay))
        simp [firstMaxNE, hba, hay, hby, ih]

lemma pyMax_eq_firstMaxNE {α β : Type} [LinearOrder β] (key : α → β) (l : List α) (x : α) :
    pyMax key x l = firstMaxNE key x l := by
  induction l generalizing x with
  | nil => rfl
  | cons a l ih =>
    show pyMax key (if key x < key a then a else x) l = _
    rw [ih, firstMaxNE_step]
    rfl

lemma firstMaxNE_mem {α β : Type} [LinearOrder β] (key : α → β) (l : List α) (b : α) :
    firstMaxNE key b l ∈ b :: l := by
  induction l generalizing b with
  | nil => simp [firstMaxNE]
  | cons a l ih =>
    by_cases h : key b < key (firstMaxNE key a l)
    · simp only [firstMaxNE, h, if_pos]
      exact List.mem_cons_of_mem b (ih a)
    · simp [firstMaxNE, h]

lemma firstMaxNE_le {α β : Type} [LinearOrder β] (key : α → β) (l : List α) (b : α) :
    ∀ x ∈ b :: l, key x ≤ key (firstMaxNE key b l) := by
  induction l generalizing b with
  | nil => simp [firstMaxNE]
  | cons a l ih =>
    intro x hx
    rcases List.mem_cons.mp hx with rfl | hx
    · by_cases h : key x < key (firstMaxNE key a l)
      · simp only [firstMaxNE, h, if_pos]
        exact le_of_lt h
      · simp [firstMaxNE, h]
    · have hx' := ih a x hx
      by_cases h : key b < key (firstMaxNE key a l)
      · simpa [firstMaxNE, h] using hx'
      · have : key x ≤ key b := le_trans hx' (le_of_not_lt h)
        simpa [firstMaxNE, h] using this

lemma firstMaxNE_firstIdx {β : Type} [LinearOrder β] (key : String → β) (l : List String)
    (b : String) :
    ∀ s ∈ b :: l, key (firstMaxNE key b l) ≤ key s →
      firstIdx (b :: l) (firstMaxNE key b l) ≤ firstIdx (b :: l) s := by
  induction l generalizing b with
  | nil =>
    intro s hs _
    rcases List.mem_cons.mp hs with h | h
    · subst h; simp [firstMaxNE]
    · cases h
  | cons a l ih =>
    intro s hs hkey
    by_cases h : key b < key (firstMaxNE key a l)
    · have hr : firstMaxNE key b (a :: l) = firstMaxNE key a l := by
        simp [firstMaxNE, h]
      rw [hr] at hkey ⊢
      have hyb : firstMaxNE key a l ≠ b := by
        intro he
        rw [he] at h
        exact lt_irrefl _ h
      have hsb : s ≠ b := by
        intro he
        rw [he] at hkey
        exact absurd (lt_of_lt_of_le h hkey) (lt_irrefl _)
      have hs' : s ∈ a :: l := by
        rcases List.mem_cons.mp hs with h' | h'
        · exact absurd h' hsb
        · exact h'
      have step := ih a s hs' hkey
      have hbn : b ≠ firstMaxNE key a l := Ne.symm hyb
      have hbs : b ≠ s := Ne.symm hsb
      have e1 : firstIdx (b :: a :: l) (firstMaxNE key a l) =
          firstIdx (a :: l) (firstMaxNE key a l) + 1 := by
        simp [firstIdx, hbn]
      have e2 : firstIdx (b :: a :: l) s = firstIdx (a :: l) s + 1 := by
        simp [firstIdx, hbs]
      rw [e1, e2]
      exact Nat.succ_le_succ step
    · have hr : firstMaxNE key b (a :: l) = b := by
        simp [firstMaxNE, h]
      rw [hr]
      simp [firstIdx]

/-- C1: for every missing glyph, the resolver's character decision is: if
the list of non-empty OCR results is empty, the resolved character equals
the caller-supplied default character; otherwise it is the most frequent
symbol of the results list, ties broken by first occurrence among the tied
symbols. -/
theorem resolve_glyph_char_spec (results : List String) (default_character : String) :
    (results = [] → resolveGlyphChar results default_character = default_character) ∧
    (results ≠ [] →
      resolveGlyphChar results default_character ∈ results ∧
      (∀ s ∈ results,
        results.count s ≤ results.count (resolveGlyphChar results default_character)) ∧
      (∀ s ∈ results,
        results.count (resolveGlyphChar results default_character) ≤ results.count s →
          firstIdx results (resolveGlyphChar results default_character) ≤ firstIdx results s)) := by
  constructor
  · intro h
    subst h
    rfl
  · intro h
    match results with
    | [] => exact absurd rfl h
    | x :: xs =>
      have hres : resolveGlyphChar (x :: xs) default_character =
          firstMaxNE (fun s => (x :: xs).count s) x xs := by
        show pyMax (fun s => (x :: xs).count s) x xs = _
        exact pyMax_eq_firstMaxNE _ xs x
      rw [hres]
      refine ⟨firstMaxNE_mem _ xs x, ?_, ?_⟩
      · exact firstMaxNE_le (fun s => (x :: xs).count s) xs x
      · exact firstMaxNE_firstIdx (fun s => (x :: xs).count s) xs x

/-- Witness for C1: the tie `["A", "B"]` resolves to the first-seen
candidate `"A"`. -/
theorem resolve_glyph_char_spec_witness :
    (["A", "B"] : List String) ≠ [] ∧
    resolveGlyphChar ["A", "B"] "?" ∈ (["A", "B"] : List String) ∧
    resolveGlyphChar ["A", "B"] "?" = "A" :=
  ⟨by decide, ((resolve_glyph_char_spec ["A", "B"] "?").2 (by decide)).1, by rfl⟩

/-- The descending-height ordering used by
`locations.sort(key=lambda x: x.height, reverse=True)`. -/
def heightGE (a b : CharLocation) : Prop := b.height ≤ a.height

instance : DecidableRel heightGE :=
  fun a b => inferInstanceAs (Decidable (b.height ≤ a.height))

instance : IsTotal CharLocation heightGE :=
  ⟨fun a b => le_total b.height a.height⟩

instance : IsTrans CharLocation heightGE :=
  ⟨fun _ _ _ h1 h2 => le_trans h2 h1⟩

/-- Embedding of the in-place stable descending sort of a glyph's
locations in `_process_all_missing_occurences`. -/
def sortLocationsDesc (locations : List CharLocation) : List CharLocation :=
  List.insertionSort heightGE locations

/-- The constant `max_count = 5` of `_ocr_missing_glyph`. -/
def maxOcrSamples : ℕ := 5

/-- The locations actually attempted by the sampling loop of
`_ocr_missing_glyph`: the loop increments `count` before doing anything
and breaks once `count > max_count`, so it walks the first
`max_count` entries of the sorted list. -/
def sampledLocations (locations : List CharLocation) : List CharLocation :=
  (sortLocationsDesc locations).take maxOcrSamples

/-- The locations the sampling loop never reaches. -/
def unsampledLocations (locations : List CharLocation) : List CharLocation :=
  (sortLocationsDesc locations).drop maxOcrSamples

/-- C2: the resolver samples at most 5 locations per glyph; the sampled
and unsampled locations together are exactly the glyph's locations; the
sampled ones are processed in descending-height order; when the glyph has
at least 5 locations exactly 5 are sampled, and every sampled location is
at least as tall as every unsampled one. -/
theorem sampled_locations_spec (locations : List CharLocation) :
    (sampledLocations locations).length ≤ maxOcrSamples ∧
    List.Perm (sampledLocations locations ++ unsampledLocations locations) locations ∧
    List.Sorted heightGE (sampledLocations locations) ∧
    (maxOcrSamples ≤ locations.length →
      (sampledLocations locations).length = maxOcrSamples) ∧
    (∀ x ∈ sampledLocations locations, ∀ y ∈ unsampledLocations locations,
      y.height ≤ x.height) := by
  refine ⟨?_, ?_, ?_, ?_, ?_⟩
  · simp [sampledLocations, List.length_take]
  · have h1 : sampledLocations locations ++ unsampledLocations locations =
        sortLocationsDesc locations :=
      List.take_append_drop _ _
    rw [h1]
    exact List.perm_insertionSort _ _
  · exact List.Pairwise.sublist (List.take_sublist _ _)
      (List.sorted_insertionSort heightGE locations)
  · intro h
    have hlen : (sortLocationsDesc locations).length = locations.length :=
      (List.perm_insertionSort heightGE locations).length_eq
    simp [sampledLocations, List.length_take, hlen]
    omega
  · have hs : List.Sorted heightGE (sortLocationsDesc locations) :=
      List.sorted_insertionSort heightGE locations
    rw [← List.take_append_drop maxOcrSamples (sortLocationsDesc locations)] at hs
    have hp := (List.pairwise_append.mp hs).2.2
    exact fun x hx y hy => hp x hx y hy

/-- Witness for C2 at a list of six locations. -/
theorem sampled_locations_spec_witness :
    maxOcrSamples ≤ ([mkCharLocation 0 ⟨0, 1, 1, 0⟩, mkCharLocation 0 ⟨0, 2, 1, 0⟩,
      mkCharLocation 1 ⟨0, 3, 1, 0⟩, mkCharLocation 1 ⟨0, 4, 1, 0⟩,
      mkCharLocation 2 ⟨0, 5, 1, 0⟩, mkCharLocation 2 ⟨0, 6, 1, 0⟩] :
        List CharLocation).length ∧
    (sampledLocations [mkCharLocation 0 ⟨0, 1, 1, 0⟩, mkCharLocation 0 ⟨0, 2, 1, 0⟩,
      mkCharLocation 1 ⟨0, 3, 1, 0⟩, mkCharLocation 1 ⟨0, 4, 1, 0⟩,
      mkCharLocation 2 ⟨0, 5, 1, 0⟩, mkCharLocation 2 ⟨0, 6, 1, 0⟩]).length =
      maxOcrSamples :=
  ⟨by decide, (sampled_locations_spec _).2.2.2.1 (by decide)⟩

/-- Embedding of `MissingGlyph`: the font (represented by its name, which
is all `MissingGlyph` uses to build its key), the char code and the
accumulated locations. -/
structure MissingGlyph where
  font_name : String
  char_code : ℕ
  locations : List CharLocation
deriving DecidableEq, Repr

/-- Embedding of the key `f"{font.GetFontName()}{char_code}"`. -/
def glyphKey (font_name : String) (char_code : ℕ) : String :=
  font_name ++ toString char_code

/-- The `missing_glyphs` dictionary, as an insertion-ordered association
list with unique keys. -/
abbrev GlyphTable := List (String × MissingGlyph)

/-- One character visited by the scanning loop of
`_gather_all_missing_occurences`: the embedded font's name, the char
code, the decoded text `GetCharText`, and the page/bbox of the char. -/
structure CharRecord where
  font_name : String
  char_code : ℕ
  char_text : String
  page_index : ℕ
  bbox : PdfRect
deriving DecidableEq, Repr

/-- Embedding of Python's `ord`: defined on strings of length exactly one,
raising (modelled as `Except.error`) otherwise. -/
def pyOrd (s : String) : Except Unit ℕ :=
  match s.data with
  | [c] => Except.ok c.toNat
  | _ => Except.error ()

/-- Embedding of `_should_char_be_ocr`: empty decoded text needs OCR;
otherwise `ord` is taken (which may raise) and compared against the two
sentinels 65534 (U+FFFE) and 65279 (U+FEFF). -/
def should_char_be_ocr (character : String) : Except Unit Bool :=
  if character = "" then Except.ok true
  else
    match pyOrd character with
    | Except.error e => Except.error e
    | Except.ok number =>
        if number = 65534 ∨ number = 65279 then Except.ok true else Except.ok false

/-- Dictionary lookup `missing_glyphs[key]` (first matching key). -/
def lookupGlyph : GlyphTable → String → Option MissingGlyph
  | [], _ => none
  | (k, g) :: rest, key => if k = key then some g else lookupGlyph rest key

/-- In-place `missing_glyphs[key].add_location(location)`: append one
location to the entry with the given key. -/
def updateGlyph : GlyphTable → String → CharLocation → GlyphTable
  | [], _, _ => []
  | (k, g) :: rest, key, loc =>
      if k = key then (k, { g with locations := g.locations ++ [loc] }) :: rest
      else (k, g) :: updateGlyph rest key loc

/-- Embedding of the table update in `_gather_all_missing_occurences`:
create the entry on first occurrence, then append the location. -/
def addLocation (table : GlyphTable) (r : CharRecord) : GlyphTable :=
  let key := glyphKey r.font_name r.char_code
  let loc := mkCharLocation r.page_index r.bbox
  let table1 :=
    match lookupGlyph table key with
    | some _ => table
    | none =>
        table ++ [(key,
          { font_name := r.font_name, char_code := r.char_code, locations := [] })]
  updateGlyph table1 key loc

/-- The locations recorded in the table under a key (empty if absent). -/
def locationsOf (table : GlyphTable) (key : String) : List CharLocation :=
  match lookupGlyph table key with
  | none => []
  | some g => g.locations

/-- One iteration of the per-character loop of
`_gather_all_missing_occurences`. -/
def gatherStep (table : GlyphTable) (r : CharRecord) : Except Unit GlyphTable :=
  match should_char_be_ocr r.char_text with
  | Except.error e => Except.error e
  | Except.ok b => if b then Except.ok (addLocation table r) else Except.ok table

/-- The per-character loop of `_gather_all_missing_occurences`: a raised
exception aborts the whole loop (there is no handler around it). -/
def gatherChars (table : GlyphTable) : List CharRecord → Except Unit GlyphTable
  | [] => Except.ok table
  | r :: rs =>
      match gatherStep table r with
      | Except.error e => Except.error e
      | Except.ok t => gatherChars t rs

lemma lookupGlyph_append (t t' : GlyphTable) (key : String) :
    lookupGlyph (t ++ t') key =
      match lookupGlyph t key with
      | some g => some g
      | none => lookupGlyph t' key := by
  induction t with
  | nil => rfl
  | cons p rest ih =>
    obtain ⟨k, g⟩ := p
    by_cases h : k = key
    · simp [lookupGlyph, h]
    · simp [lookupGlyph, h, ih]

lemma locationsOf_update_of_isSome (t : GlyphTable) (key : String) (loc : CharLocation)
    (h : (lookupGlyph t key).isSome) :
    locationsOf (updateGlyph t key loc) key = locationsOf t key ++ [loc] := by
  induction t with
  | nil => simp [lookupGlyph] at h
  | cons p rest ih =>
    obtain ⟨k, g⟩ := p
    by_cases hk : k = key
    · simp [locationsOf, lookupGlyph, updateGlyph, hk]
    · simp only [lookupGlyph, hk, if_neg, ite_false] at h
      have := ih h
      simpa [locationsOf, lookupGlyph, updateGlyph, hk] using this

lemma locationsOf_update_of_ne (t : GlyphTable) (key key' : String) (loc : CharLocation)
    (h : key' ≠ key) :
    locationsOf (updateGlyph t key loc) key' = locationsOf t key' := by
  induction t with
  | nil => simp [updateGlyph]
  | cons p rest ih =>
    obtain ⟨k, g⟩ := p
    by_cases hk : k = key
    · subst hk
      have hk2 : ¬ k = key' := fun he => h he.symm
      simp [locationsOf, lookupGlyph, updateGlyph, hk2]
    · by_cases hk' : k = key'
      · subst hk'
        simp [locationsOf, lookupGlyph, updateGlyph, hk]
      · simpa [locationsOf, lookupGlyph, updateGlyph, hk, hk'] using ih

lemma locationsOf_addLocation_same (t : GlyphTable) (r : CharRecord) :
    locationsOf (addLocation t r) (glyphKey r.font_name r.char_code) =
      locationsOf t (glyphKey r.font_name r.char_code) ++
        [mkCharLocation r.page_index r.bbox] := by
  unfold addLocation
  cases h : lookupGlyph t (glyphKey r.font_name r.char_code) with
  | some g =>
    simp only [h]
    exact locationsOf_update_of_isSome _ _ _ (by simp [h])
  | none =>
    simp only [h]
    have hsome : lookupGlyph
        (t ++ [(glyphKey r.font_name r.char_code,
          { font_name := r.font_name, char_code := r.char_code,
            locations := [] : MissingGlyph })])
        (glyphKey r.font_name r.char_code) =
        some { font_name := r.font_name, char_code := r.char_code, locations := [] } := by
      rw [lookupGlyph_append, h]
      simp [lookupGlyph]
    rw [locationsOf_update_of_isSome _ _ _ (by simp [hsome])]
    simp [locationsOf, hsome, h]

lemma locationsOf_addLocation_of_ne (t : GlyphTable) (r : CharRecord) (k : String)
    (h : k ≠ glyphKey r.font_name r.char_code) :
    locationsOf (addLocation t r) k = locationsOf t k := by
  unfold addLocation
  cases hl : lookupGlyph t (glyphKey r.font_name r.char_code) with
  | some g =>
    simp only [hl]
    exact locationsOf_update_of_ne _ _ _ _ h
  | none =>
    simp only [hl]
    rw [locationsOf_update_of_ne _ _ _ _ h]
    simp only [locationsOf, lookupGlyph_append]
    cases hk : lookupGlyph t k with
    | some g => simp
    | none =>
      have h2 : ¬ glyphKey r.font_name r.char_code = k := fun he => h he.symm
      simp [lookupGlyph, h2]

lemma string_eq_empty_of_data_nil (s : String) (h : s.data = []) : s = "" := by
  cases s
  simp_all

lemma should_char_be_ocr_single (s : String) (c : Char) (h : s.data = [c]) :
    should_char_be_ocr s =
      if c.toNat = 65534 ∨ c.toNat = 65279 then Except.ok true else Except.ok false := by
  have hne : s ≠ "" := by
    intro he
    rw [he] at h
    have h2 : ([] : List Char) = [c] := h
    simp at h2
  have hord : pyOrd s = Except.ok c.toNat := by
    unfold pyOrd
    rw [h]
  unfold should_char_be_ocr
  rw [if_neg hne, hord]

lemma should_char_be_ocr_multi (s : String) (c d : Char) (rest : List Char)
    (h : s.data = c :: d :: rest) :
    should_char_be_ocr s = Except.error () := by
  have hne : s ≠ "" := by
    intro he
    rw [he] at h
    have h2 : ([] : List Char) = c :: d :: rest := h
    simp at h2
  have hord : pyOrd s = Except.error () := by
    unfold pyOrd
    rw [h]
  unfold should_char_be_ocr
  rw [if_neg hne, hord]

/-- C3: the per-character scanning step creates/extends a MissingGlyph
entry exactly when the character's decoded text is empty or its decoded
codepoint is 65534 (U+FFFE) or 65279 (U+FEFF): in that case the entry for
the character's key gains exactly the new location and all other keys are
untouched; for every other decoded text the table is left unchanged
whenever the step returns at all. -/
theorem gather_step_spec (table : GlyphTable) (r : CharRecord) :
    ((r.char_text = "" ∨
        ∃ c : Char, r.char_text.data = [c] ∧ (c.toNat = 65534 ∨ c.toNat = 65279)) →
      gatherStep table r = Except.ok (addLocation table r) ∧
      locationsOf (addLocation table r) (glyphKey r.font_name r.char_code) =
        locationsOf table (glyphKey r.font_name r.char_code) ++
          [mkCharLocation r.page_index r.bbox] ∧
      (∀ k, k ≠ glyphKey r.font_name r.char_code →
        locationsOf (addLocation table r) k = locationsOf table k)) ∧
    (¬ (r.char_text = "" ∨
        ∃ c : Char, r.char_text.data = [c] ∧ (c.toNat = 65534 ∨ c.toNat = 65279)) →
      ∀ t', gatherStep table r = Except.ok t' → t' = table) := by
  constructor
  · intro h
    have hocr : should_char_be_ocr r.char_text = Except.ok true := by
      rcases h with h | ⟨c, hc, hsent⟩
      · rw [h]
        rfl
      · rw [should_char_be_ocr_single _ c hc, if_pos hsent]
    refine ⟨?_, locationsOf_addLocation_same table r,
      fun k hk => locationsOf_addLocation_of_ne table r k hk⟩
    unfold gatherStep
    rw [hocr]
    rfl
  · intro h t' ht'
    obtain ⟨h1, h2⟩ := not_or.mp h
    cases hdata : r.char_text.data with
    | nil => exact absurd (string_eq_empty_of_data_nil _ hdata) h1
    | cons c cs =>
      cases cs with
      | nil =>
        have hsent : ¬ (c.toNat = 65534 ∨ c.toNat = 65279) := fun hs => h2 ⟨c, hdata, hs⟩
        have hocr : should_char_be_ocr r.char_text = Except.ok false := by
          rw [should_char_be_ocr_single _ c hdata, if_neg hsent]
        simp [gatherStep, hocr] at ht'
        exact ht'.symm
      | cons d rest =>
        have hocr := should_char_be_ocr_multi _ c d rest hdata
        simp [gatherStep, hocr] at ht'

/-- Witness for C3: a character decoded to the empty string is recorded. -/
theorem gather_step_spec_witness :
    ((⟨"F", 7, "", 0, ⟨0, 1, 1, 0⟩⟩ : CharRecord).char_text = "" ∨
      ∃ c : Char, (⟨"F", 7, "", 0, ⟨0, 1, 1, 0⟩⟩ : CharRecord).char_text.data = [c] ∧
        (c.toNat = 65534 ∨ c.toNat = 65279)) ∧
    gatherStep [] ⟨"F", 7, "", 0, ⟨0, 1, 1, 0⟩⟩ =
      Except.ok (addLocation [] ⟨"F", 7, "", 0, ⟨0, 1, 1, 0⟩⟩) :=
  ⟨Or.inl rfl, ((gather_step_spec [] ⟨"F", 7, "", 0, ⟨0, 1, 1, 0⟩⟩).1 (Or.inl rfl)).1⟩

/-- C10: the needs-OCR predicate raises on any decoded text of length at
least two (Python's `ord` on a multi-character string), and since the
per-character loop has no handler this aborts the entire scan instead of
skipping the character. -/
theorem multi_char_text_aborts_scan (s : String) (h : 2 ≤ s.length) :
    should_char_be_ocr s = Except.error () ∧
    ∀ (table : GlyphTable) (r : CharRecord) (rs : List CharRecord),
      r.char_text = s → gatherChars table (r :: rs) = Except.error () := by
  have hlen : 2 ≤ s.data.length := h
  have hshape : ∃ c d rest, s.data = c :: d :: rest := by
    rcases hd : s.data with _ | ⟨c, _ | ⟨d, rest⟩⟩
    · rw [hd] at hlen
      simp at hlen
    · rw [hd] at hlen
      simp at hlen
    · exact ⟨c, d, rest, rfl⟩
  obtain ⟨c, d, rest, hd⟩ := hshape
  have hocr := should_char_be_ocr_multi s c d rest hd
  refine ⟨hocr, ?_⟩
  intro table r rs hr
  have hstep : gatherStep table r = Except.error () := by
    unfold gatherStep
    rw [hr, hocr]
  unfold gatherChars
  rw [hstep]

/-- Witness for C10: a ligature decoded to the two-character string
`"fi"` aborts the scan. -/
theorem multi_char_text_aborts_scan_witness :
    2 ≤ ("fi" : String).length ∧
    gatherChars [] [⟨"F", 1, "fi", 0, ⟨0, 1, 1, 0⟩⟩] = Except.error () :=
  ⟨by decide, (multi_char_text_aborts_scan "fi" (by decide)).2 [] _ [] rfl⟩

/-- What the environment does at one sampled location inside the loop of
`_ocr_missing_glyph`: `doc.AcquirePage` returns `None` (logged and
skipped), rendering/cropping raises `PdfixFailedToRenderException`
(uncaught: the loop body has only `try/finally`), or OCR returns a
string. -/
inductive SampleOutcome where
  | pageAcquireFail : SampleOutcome
  | renderFail : SampleOutcome
  | ocrResult : String → SampleOutcome
deriving DecidableEq, Repr

/-- The body of the sampling loop of `_ocr_missing_glyph` over the
sampled locations: a `None` page is skipped, a raised render exception
propagates (`Except.error`), an OCR result is appended when non-empty. -/
def collectResults : List SampleOutcome → Except Unit (List String)
  | [] => Except.ok []
  | SampleOutcome.pageAcquireFail :: os => collectResults os
  | SampleOutcome.renderFail :: _ => Except.error ()
  | SampleOutcome.ocrResult s :: os =>
      match collectResults os with
      | Except.error e => Except.error e
      | Except.ok rest => Except.ok (if s = "" then rest else s :: rest)

/-- Embedding of `_ocr_missing_glyph` for one glyph, driven by the
outcomes at its (already sorted) locations: walk the first `max_count`
locations, then resolve the collected results. -/
def ocrMissingGlyph (outcomes : List SampleOutcome) (default_character : String) :
    Except Unit String :=
  match collectResults (outcomes.take maxOcrSamples) with
  | Except.error e => Except.error e
  | Except.ok results => Except.ok (resolveGlyphChar results default_character)

/-- Embedding of `_process_all_missing_occurences`: resolve each glyph in
turn; an exception raised while resolving one glyph propagates (the loop
has no handler). -/
def processAllMissing (gs : List (List SampleOutcome)) (d : String) :
    Except Unit (List String) :=
  match gs with
  | [] => Except.ok []
  | os :: rest =>
      match ocrMissingGlyph os d with
      | Except.error e => Except.error e
      | Except.ok c =>
          match processAllMissing rest d with
          | Except.error e => Except.error e
          | Except.ok cs => Except.ok (c :: cs)

/-- Embedding of `_clean_up_rendered_pages`: `os.remove` every cached
path, in cache order; the returned list is the sequence of deletions. -/
def cleanUpRenderedPages (cache : List (ℕ × ℕ)) : List ℕ := cache.map Prod.snd

/-- Control flow of `fix_missing_unicode` around resolution: the call to
`_clean_up_rendered_pages` follows `_process_all_missing_occurences` in
straight-line code (not in a `finally` block), so it is reached only when
resolution returns normally.  The boolean records whether cleanup ran. -/
def fixMissingUnicodeSteps (gs : List (List SampleOutcome)) (d : String) :
    Except Unit Unit × Bool :=
  match processAllMissing gs d with
  | Except.error e => (Except.error e, false)
  | Except.ok _ => (Except.ok (), true)

lemma collectResults_error_iff (os : List SampleOutcome) :
    collectResults os = Except.error () ↔ SampleOutcome.renderFail ∈ os := by
  induction os with
  | nil => simp [collectResults]
  | cons o os ih =>
    cases o with
    | pageAcquireFail => simpa [collectResults] using ih
    | renderFail => simp [collectResults]
    | ocrResult s =>
      have hne : (SampleOutcome.renderFail ∈ SampleOutcome.ocrResult s :: os) ↔
          SampleOutcome.renderFail ∈ os := by simp
      rw [hne, ← ih]
      cases hc : collectResults os with
      | error e =>
        cases e
        simp [collectResults, hc]
      | ok rest =>
        simp [collectResults, hc]

lemma ocrMissingGlyph_error_iff (os : List SampleOutcome) (d : String) :
    ocrMissingGlyph os d = Except.error () ↔
      SampleOutcome.renderFail ∈ os.take maxOcrSamples := by
  unfold ocrMissingGlyph
  rw [← collectResults_error_iff (os.take maxOcrSamples)]
  cases hc : collectResults (os.take maxOcrSamples) with
  | error e =>
    cases e
    simp
  | ok res => simp

lemma processAllMissing_cons (os : List SampleOutcome) (gs : List (List SampleOutcome))
    (d : String) :
    processAllMissing (os :: gs) d = Except.error () ↔
      (ocrMissingGlyph os d = Except.error () ∨
        processAllMissing gs d = Except.error ()) := by
  cases hg : ocrMissingGlyph os d with
  | error e =>
    cases e
    simp [processAllMissing, hg]
  | ok c =>
    cases hp : processAllMissing gs d with
    | error e =>
      cases e
      simp [processAllMissing, hg, hp]
    | ok cs => simp [processAllMissing, hg, hp]

lemma processAllMissing_error_iff (gs : List (List SampleOutcome)) (d : String) :
    processAllMissing gs d = Except.error () ↔
      ∃ os ∈ gs, SampleOutcome.renderFail ∈ os.take maxOcrSamples := by
  induction gs with
  | nil => simp [processAllMissing]
  | cons os gs ih =>
    rw [processAllMissing_cons, ocrMissingGlyph_error_iff, ih]
    simp

/-- C4 counterexample: a rasterization failure at the very first sample of
the first glyph makes the whole resolution phase raise: the remaining
samples and the remaining glyph are not processed, contradicting the claim
that a rasterization failure never aborts the run. -/
theorem render_failure_aborts_run_cex :
    processAllMissing [[SampleOutcome.renderFail, SampleOutcome.ocrResult "A"],
      [SampleOutcome.ocrResult "B"]] "?" = Except.error () := rfl

/-- C4 (amended): a page-acquisition failure at a sampled location is
skipped and the remaining samples are still processed; but a
rasterization failure raises an uncaught exception, so one glyph's
resolution fails exactly when a sampled location fails to rasterize, and
the whole resolution phase aborts exactly when this happens for some
glyph. -/
theorem render_failure_propagates (os : List SampleOutcome)
    (gs : List (List SampleOutcome)) (d : String) :
    collectResults (SampleOutcome.pageAcquireFail :: os) = collectResults os ∧
    (ocrMissingGlyph os d = Except.error () ↔
      SampleOutcome.renderFail ∈ os.take maxOcrSamples) ∧
    (processAllMissing gs d = Except.error () ↔
      ∃ os' ∈ gs, SampleOutcome.renderFail ∈ os'.take maxOcrSamples) :=
  ⟨rfl, ocrMissingGlyph_error_iff os d, processAllMissing_error_iff gs d⟩

/-- C5 counterexample: when resolution raises, `fix_missing_unicode`
never reaches `_clean_up_rendered_pages` (the call is not in a `finally`
block), so cleanup does not run on this exit path. -/
theorem cleanup_skipped_on_error_cex :
    fixMissingUnicodeSteps [[SampleOutcome.renderFail]] "?" =
      (Except.error (), false) := rfl

/-- C5 (amended): cleanup deletes every cached raster's backing storage
exactly once when it runs, but it runs only on the successful path: it is
reached if and only if no glyph's resolution raised a rasterization
failure. -/
theorem cleanup_spec (cache : List (ℕ × ℕ)) (gs : List (List SampleOutcome))
    (d : String) (h : (cache.map Prod.snd).Nodup) :
    (∀ p ∈ cache.map Prod.snd, (cleanUpRenderedPages cache).count p = 1) ∧
    ((fixMissingUnicodeSteps gs d).2 = true ↔
      ¬ ∃ os ∈ gs, SampleOutcome.renderFail ∈ os.take maxOcrSamples) := by
  constructor
  · intro p hp
    exact List.count_eq_one_of_mem h hp
  · rw [← processAllMissing_error_iff gs d]
    unfold fixMissingUnicodeSteps
    cases hp : processAllMissing gs d with
    | error e =>
      cases e
      simp
    | ok cs => simp

/-- Witness for C5 at a two-entry cache and an empty glyph table. -/
theorem cleanup_spec_witness :
    (([(0, 10), (1, 11)] : List (ℕ × ℕ)).map Prod.snd).Nodup ∧
    (cleanUpRenderedPages [(0, 10), (1, 11)]).count 10 = 1 :=
  ⟨by decide, (cleanup_spec [(0, 10), (1, 11)] [] "?" (by decide)).1 10 (by decide)⟩

/-- Outcome of one `pytesseract.image_to_string` invocation: an exception
somewhere in the `try` block, or a raw recognized string. -/
inductive TesseractOutcome where
  | raises : TesseractOutcome
  | returns : String → TesseractOutcome
deriving DecidableEq, Repr

/-- Python's `result.strip("\n")`: remove leading and trailing newline
characters. -/
def stripNewlines (s : String) : String :=
  String.mk (((s.data.dropWhile fun c => c == '\n').reverse.dropWhile
    fun c => c == '\n').reverse)

/-- Embedding of `OCR.tesseract_ocr`: strip newlines and return the first
character, the empty string when nothing is left, and the configured
default character when the engine raised. -/
def tesseract_ocr (default_character : String) : TesseractOutcome → String
  | TesseractOutcome.raises => default_character
  | TesseractOutcome.returns raw =>
      match (stripNewlines raw).data with
      | [] => ""
      | c :: _ => String.mk [c]

/-- Outcome of one RapidOCR invocation: an exception somewhere in the
`try` block, or the `(text, score)` pairs that `_parse_rapid_ocr`
extracted. -/
inductive RapidOutcome where
  | raises : RapidOutcome
  | parsed : List (String × ℚ) → RapidOutcome
deriving DecidableEq, Repr

/-- Embedding of `OCR.rapid_ocr`: highest-score candidate when any were
parsed, otherwise the default character; the default character also on an
exception. -/
def rapid_ocr (default_character : String) : RapidOutcome → String
  | RapidOutcome.raises => default_character
  | RapidOutcome.parsed output =>
      match output with
      | [] => default_character
      | x :: xs => (pyMax (fun p => p.2) x xs).1

/-- Outcome of one `easyocr.Reader.readtext` invocation. -/
inductive EasyOutcome where
  | raises : EasyOutcome
  | recognized : List String → EasyOutcome
deriving DecidableEq, Repr

/-- Embedding of `OCR.easy_ocr`: first detected line if any, otherwise
the default character; the default character also on an exception. -/
def easy_ocr (default_character : String) : EasyOutcome → String
  | EasyOutcome.raises => default_character
  | EasyOutcome.recognized lines =>
      match lines with
      | [] => default_character
      | x :: _ => x

/-- C6 counterexample: with the command line's default fallback character
`" "`, a raising Tesseract invocation yields `" "`, a non-empty string —
not the empty result the claim requires. -/
theorem ocr_failure_not_empty_cex :
    tesseract_ocr " " TesseractOutcome.raises ≠ "" := by decide

/-- C6 (amended): every OCR backend catches any internal failure at its
boundary (the embedding of each backend is a total function, nothing
propagates) and converts it to the caller-supplied default character —
not to the empty string; the result of a failed invocation is empty only
when the configured default character is itself empty. -/
theorem ocr_failure_returns_default (d : String) :
    tesseract_ocr d TesseractOutcome.raises = d ∧
    rapid_ocr d RapidOutcome.raises = d ∧
    easy_ocr d EasyOutcome.raises = d ∧
    (tesseract_ocr d TesseractOutcome.raises = "" ↔ d = "") :=
  ⟨rfl, rfl, rfl, Iff.rfl⟩

/-- Embedding of `_increase_bbox`: grow the box by `increase_by` on every
side, honouring the coordinate convention.  The Python function assigns
to the fields of the very rect it receives and returns that same object,
so the value returned here is also the post-state of the argument. -/
def increase_bbox (bbox : PdfRect) (increase_by : ℤ) : PdfRect :=
  if bbox.bottom < bbox.top then
    { left := bbox.left - increase_by, top := bbox.top + increase_by,
      right := bbox.right + increase_by, bottom := bbox.bottom - increase_by }
  else
    { left := bbox.left - increase_by, top := bbox.top - increase_by,
      right := bbox.right + increase_by, bottom := bbox.bottom + increase_by }

/-- The state of a sampled location after `_ocr_missing_glyph` computed
its crop box: since `_increase_bbox` mutates `location.bbox` in place,
the stored bbox now holds the expanded coordinates (the stored height,
computed at construction, is unchanged). -/
def locationAfterSampleStep (loc : CharLocation) : CharLocation :=
  { loc with bbox := increase_bbox loc.bbox 2 }

/-- C7 counterexample: sampling a location changes its stored bounding
box — `_increase_bbox` does not leave its input unchanged. -/
theorem stored_bbox_mutated_cex :
    (locationAfterSampleStep (mkCharLocation 0 ⟨0, 10, 10, 0⟩)).bbox ≠
      (mkCharLocation 0 ⟨0, 10, 10, 0⟩).bbox := by
  intro h
  have h2 : (increase_bbox (⟨0, 10, 10, 0⟩ : PdfRect) 2).left = (0 : ℚ) :=
    congrArg PdfRect.left h
  norm_num [increase_bbox] at h2

/-- C7 (amended): `_increase_bbox` updates the given bbox in place and
returns that same box, so a sampled CharacterLocation's stored bounding
box is enlarged by 2 units on every side when the location is processed
(it always differs from the original, e.g. on the left edge), while the
stored height keeps its construction-time value. -/
theorem stored_bbox_mutated (loc : CharLocation) :
    (locationAfterSampleStep loc).bbox = increase_bbox loc.bbox 2 ∧
    (locationAfterSampleStep loc).bbox.left = loc.bbox.left - 2 ∧
    (locationAfterSampleStep loc).bbox ≠ loc.bbox ∧
    (locationAfterSampleStep loc).height = loc.height := by
  have hleft : (increase_bbox loc.bbox 2).left = loc.bbox.left - 2 := by
    unfold increase_bbox
    split_ifs <;> norm_num
  refine ⟨rfl, hleft, ?_, rfl⟩
  intro h
  have h2 : (increase_bbox loc.bbox 2).left = loc.bbox.left := congrArg PdfRect.left h
  rw [hleft] at h2
  linarith

lemma increase_bbox_def (l t r b : ℚ) (m : ℤ) :
    increase_bbox ⟨l, t, r, b⟩ m =
      if b < t then (⟨l - m, t + m, r + m, b - m⟩ : PdfRect)
      else ⟨l - m, t - m, r + m, b + m⟩ := by
  simp only [increase_bbox]

/-- C9 counterexample: with bbox `(left 0, top 10, right 10, bottom 0)`
and margin `-6`, the first expansion flips the coordinate convention
(bottom 6 > top 4), so the inverse expansion takes the other branch and
does not restore the box. -/
theorem expand_inverse_cex :
    increase_bbox (increase_bbox ⟨0, 10, 10, 0⟩ (-6)) 6 ≠ (⟨0, 10, 10, 0⟩ : PdfRect) := by
  have h1 : increase_bbox ⟨0, 10, 10, 0⟩ (-6) = (⟨6, 4, 4, 6⟩ : PdfRect) := by
    rw [increase_bbox_def, if_pos (show (0 : ℚ) < 10 by norm_num)]
    norm_num
  have h2 : increase_bbox (⟨6, 4, 4, 6⟩ : PdfRect) 6 = (⟨0, -2, 10, 12⟩ : PdfRect) := by
    rw [increase_bbox_def, if_neg (show ¬ (6 : ℚ) < 4 by norm_num)]
    norm_num
  rw [h1, h2]
  intro h
  have h3 := congrArg PdfRect.top h
  norm_num at h3

/-- C9 (amended): expanding by `m` and then by `-m` restores the original
box — in both coordinate conventions — provided the margin is
non-negative (so that the first expansion cannot flip the convention); a
negative margin can flip it and break the round-trip. -/
theorem expand_inverse_nonneg (bbox : PdfRect) (m : ℤ) (h : 0 ≤ m) :
    increase_bbox (increase_bbox bbox m) (-m) = bbox := by
  have hm : (0 : ℚ) ≤ (m : ℚ) := by exact_mod_cast h
  obtain ⟨l, t, r, b⟩ := bbox
  by_cases h1 : b < t
  · have e1 : increase_bbox ⟨l, t, r, b⟩ m =
        (⟨l - m, t + m, r + m, b - m⟩ : PdfRect) := by
      rw [increase_bbox_def, if_pos h1]
    rw [e1, increase_bbox_def,
      if_pos (show b - (m : ℚ) < t + (m : ℚ) by linarith)]
    ext <;> push_cast <;> ring
  · have e1 : increase_bbox ⟨l, t, r, b⟩ m =
        (⟨l - m, t - m, r + m, b + m⟩ : PdfRect) := by
      rw [increase_bbox_def, if_neg h1]
    rw [e1, increase_bbox_def,
      if_neg (show ¬ (b + (m : ℚ) < t - (m : ℚ)) by
        push_neg
        push_neg at h1
        linarith)]
    ext <;> push_cast <;> ring

/-- Witness for the amended C9 at the margin actually used by the code. -/
theorem expand_inverse_nonneg_witness :
    (0 : ℤ) ≤ 2 ∧
    increase_bbox (increase_bbox ⟨0, 10, 10, 0⟩ 2) (-2) = (⟨0, 10, 10, 0⟩ : PdfRect) :=
  ⟨by decide, expand_inverse_nonneg ⟨0, 10, 10, 0⟩ 2 (by decide)⟩

/-- Lookup `page_index in self.cached_renders` (page index → path of the
rendered image; paths are modelled as numbers). -/
def lookupRender : List (ℕ × ℕ) → ℕ → Option ℕ
  | [], _ => none
  | (i, p) :: rest, j => if i = j then some p else lookupRender rest j

/-- Embedding of `_get_pdf_page_render`: return the cached path if the
page index is present; otherwise render the page into a fresh temporary
file, record it, and return it.  The result is (returned path, cache
after the call, whether `render_page` was invoked). -/
def getPdfPageRender (cache : List (ℕ × ℕ)) (page_index : ℕ) (fresh : ℕ) :
    ℕ × List (ℕ × ℕ) × Bool :=
  match lookupRender cache page_index with
  | some p => (p, cache, false)
  | none => (fresh, cache ++ [(page_index, fresh)], true)

/-- A run's sequence of `_get_pdf_page_render` calls: thread the cache
through the calls and record which page indices actually triggered a
render (each render consumes a fresh temporary path). -/
def renderTrace (cache : List (ℕ × ℕ)) (fresh : ℕ) : List ℕ → List (ℕ × ℕ) × List ℕ
  | [] => (cache, [])
  | i :: rest =>
      let step := getPdfPageRender cache i fresh
      let next := renderTrace step.2.1 (if step.2.2 then fresh + 1 else fresh) rest
      (next.1, (if step.2.2 then [i] else []) ++ next.2)

lemma renderTrace_cons (cache : List (ℕ × ℕ)) (fresh i : ℕ) (rs : List ℕ) :
    renderTrace cache fresh (i :: rs) =
      match lookupRender cache i with
      | some _ => renderTrace cache fresh rs
      | none =>
          ((renderTrace (cache ++ [(i, fresh)]) (fresh + 1) rs).1,
            i :: (renderTrace (cache ++ [(i, fresh)]) (fresh + 1) rs).2) := by
  cases h : lookupRender cache i with
  | some p => simp [renderTrace, getPdfPageRender, h]
  | none => simp [renderTrace, getPdfPageRender, h]

lemma lookupRender_eq_none_iff (cache : List (ℕ × ℕ)) (i : ℕ) :
    lookupRender cache i = none ↔ i ∉ cache.map Prod.fst := by
  induction cache with
  | nil => simp [lookupRender]
  | cons p rest ih =>
    obtain ⟨k, v⟩ := p
    by_cases h : k = i
    · subst h
      simp [lookupRender]
    · have h2 : ¬ i = k := fun he => h he.symm
      simp [lookupRender, h, h2, ih]

lemma renderTrace_keys_mono (rs : List ℕ) :
    ∀ cache fresh (i : ℕ), i ∈ cache.map Prod.fst →
      i ∈ (renderTrace cache fresh rs).1.map Prod.fst := by
  induction rs with
  | nil =>
    intro cache fresh i h
    simpa [renderTrace] using h
  | cons j rs ih =>
    intro cache fresh i h
    rw [renderTrace_cons]
    cases hj : lookupRender cache j with
    | some p => exact ih cache fresh i h
    | none =>
      simp only []
      exact ih _ _ i (by simp [h])

lemma renderTrace_mem_keys (rs : List ℕ) :
    ∀ cache fresh (i : ℕ), i ∈ rs →
      i ∈ (renderTrace cache fresh rs).1.map Prod.fst := by
  induction rs with
  | nil =>
    intro cache fresh i h
    cases h
  | cons j rs ih =>
    intro cache fresh i hi
    rw [renderTrace_cons]
    cases hj : lookupRender cache j with
    | some p =>
      rcases List.mem_cons.mp hi with rfl | hi'
      · have hmem : i ∈ cache.map Prod.fst := by
          by_contra hmem
          rw [(lookupRender_eq_none_iff cache i).mpr hmem] at hj
          cases hj
        exact renderTrace_keys_mono rs cache fresh i hmem
      · exact ih cache fresh i hi'
    | none =>
      simp only []
      rcases List.mem_cons.mp hi with rfl | hi'
      · exact renderTrace_keys_mono rs _ _ i (by simp)
      · exact ih _ _ i hi'

lemma renderTrace_keys_subset (rs : List ℕ) :
    ∀ cache fresh (i : ℕ), i ∈ (renderTrace cache fresh rs).1.map Prod.fst →
      i ∈ cache.map Prod.fst ∨ i ∈ rs := by
  induction rs with
  | nil =>
    intro cache fresh i h
    exact Or.inl (by simpa [renderTrace] using h)
  | cons j rs ih =>
    intro cache fresh i h
    rw [renderTrace_cons] at h
    cases hj : lookupRender cache j with
    | some p =>
      rw [hj] at h
      rcases ih cache fresh i h with h' | h'
      · exact Or.inl h'
      · exact Or.inr (List.mem_cons_of_mem j h')
    | none =>
      rw [hj] at h
      simp only [] at h
      rcases ih _ _ i h with h' | h'
      · rw [List.map_append] at h'
        rcases List.mem_append.mp h' with h'' | h''
        · exact Or.inl h''
        · have hij : i = j := by simpa using h''
          exact Or.inr (by simp [hij])
      · exact Or.inr (List.mem_cons_of_mem j h')

lemma renderTrace_keys_nodup (rs : List ℕ) :
    ∀ cache fresh, (cache.map Prod.fst).Nodup →
      ((renderTrace cache fresh rs).1.map Prod.fst).Nodup := by
  induction rs with
  | nil =>
    intro cache fresh h
    simpa [renderTrace] using h
  | cons j rs ih =>
    intro cache fresh h
    rw [renderTrace_cons]
    cases hj : lookupRender cache j with
    | some p => exact ih cache fresh h
    | none =>
      simp only []
      apply ih
      have hnotin : j ∉ cache.map Prod.fst := (lookupRender_eq_none_iff cache j).mp hj
      rw [List.map_append]
      simp [List.nodup_append, h, hnotin]

lemma renderTrace_cached_not_rendered (rs : List ℕ) :
    ∀ cache fresh (i : ℕ), i ∈ cache.map Prod.fst →
      i ∉ (renderTrace cache fresh rs).2 := by
  induction rs with
  | nil =>
    intro cache fresh i h
    simp [renderTrace]
  | cons j rs ih =>
    intro cache fresh i h
    rw [renderTrace_cons]
    cases hj : lookupRender cache j with
    | some p => exact ih cache fresh i h
    | none =>
      simp only []
      have hij : i ≠ j := by
        intro he
        subst he
        exact ((lookupRender_eq_none_iff cache i).mp hj) h
      have hrec := ih (cache ++ [(j, fresh)]) (fresh + 1) i (by simp [h])
      simp [hij, hrec]

lemma renderTrace_renders_nodup (rs : List ℕ) :
    ∀ cache fresh, ((renderTrace cache fresh rs).2).Nodup := by
  induction rs with
  | nil =>
    intro cache fresh
    simp [renderTrace]
  | cons j rs ih =>
    intro cache fresh
    rw [renderTrace_cons]
    cases hj : lookupRender cache j with
    | some p => exact ih cache fresh
    | none =>
      simp only []
      have hj2 : j ∉ (renderTrace (cache ++ [(j, fresh)]) (fresh + 1) rs).2 :=
        renderTrace_cached_not_rendered rs _ _ j (by simp)
      simp [List.nodup_cons, hj2, ih _ _]

lemma renderTrace_append (rs rs' : List ℕ) :
    ∀ cache fresh,
      renderTrace cache fresh (rs ++ rs') =
        ((renderTrace (renderTrace cache fresh rs).1
            (fresh + (renderTrace cache fresh rs).2.length) rs').1,
          (renderTrace cache fresh rs).2 ++
            (renderTrace (renderTrace cache fresh rs).1
              (fresh + (renderTrace cache fresh rs).2.length) rs').2) := by
  induction rs with
  | nil =>
    intro cache fresh
    simp [renderTrace]
  | cons j rs ih =>
    intro cache fresh
    rw [List.cons_append, renderTrace_cons, renderTrace_cons]
    cases hj : lookupRender cache j with
    | some p =>
      simp only []
      rw [ih]
    | none =>
      simp only []
      rw [ih]
      have harith : fresh + 1 + (renderTrace (cache ++ [(j, fresh)]) (fresh + 1) rs).2.length =
          fresh + ((renderTrace (cache ++ [(j, fresh)]) (fresh + 1) rs).2.length + 1) := by
        omega
      rw [harith]
      simp

/-- C8: over any run (any sequence of page-render requests starting from
the empty cache), the cache holds at most one entry per page index and
each page index triggers at most one render; a request for an
already-requested index changes nothing (the recorded handle is returned
with no re-render), while a request for a new index renders it and
records exactly one new entry. -/
theorem render_cache_at_most_once (rs : List ℕ) (i : ℕ) :
    ((renderTrace [] 0 rs).1.map Prod.fst).Nodup ∧
    (renderTrace [] 0 rs).2.Nodup ∧
    (i ∈ rs → renderTrace [] 0 (rs ++ [i]) = renderTrace [] 0 rs) ∧
    (i ∉ rs →
      (renderTrace [] 0 (rs ++ [i])).2 = (renderTrace [] 0 rs).2 ++ [i] ∧
      (renderTrace [] 0 (rs ++ [i])).1.map Prod.fst =
        (renderTrace [] 0 rs).1.map Prod.fst ++ [i]) := by
  refine ⟨renderTrace_keys_nodup rs [] 0 (by simp), renderTrace_renders_nodup rs [] 0,
    ?_, ?_⟩
  · intro hi
    have hkey : i ∈ (renderTrace [] 0 rs).1.map Prod.fst :=
      renderTrace_mem_keys rs [] 0 i hi
    have hlook : ∃ p, lookupRender (renderTrace [] 0 rs).1 i = some p := by
      cases hl : lookupRender (renderTrace [] 0 rs).1 i with
      | none => exact absurd ((lookupRender_eq_none_iff _ _).mp hl) (by simp [hkey])
      | some p => exact ⟨p, rfl⟩
    obtain ⟨p, hp⟩ := hlook
    rw [renderTrace_append, renderTrace_cons, hp]
    simp [renderTrace]
  · intro hi
    have hkey : i ∉ (renderTrace [] 0 rs).1.map Prod.fst := by
      intro hmem
      rcases renderTrace_keys_subset rs [] 0 i hmem with h | h
      · simp at h
      · exact hi h
    have hlook : lookupRender (renderTrace [] 0 rs).1 i = none :=
      (lookupRender_eq_none_iff _ _).mpr hkey
    rw [renderTrace_append, renderTrace_cons, hlook]
    simp [renderTrace]

/-- Witness for C8: a repeated request for page 0 after requests 0, 1
leaves the trace unchanged, and a first request for page 2 adds one
render. -/
theorem render_cache_at_most_once_witness :
    (0 ∈ ([0, 1] : List ℕ) ∧ renderTrace [] 0 ([0, 1] ++ [0]) = renderTrace [] 0 [0, 1]) ∧
    (2 ∉ ([0, 1] : List ℕ) ∧
      (renderTrace [] 0 ([0, 1] ++ [2])).2 = (renderTrace [] 0 [0, 1]).2 ++ [2]) :=
  ⟨⟨by decide, (render_cache_at_most_once [0, 1] 0).2.2.1 (by decide)⟩,
    ⟨by decide, ((render_cache_at_most_once [0, 1] 2).2.2.2 (by decide)).1⟩⟩
